import Mathlib

/-!
Verification of the beluga particle-filter core: the `reweight` range action
(`beluga/actions/reweight.hpp`) and the omnidirectional drive motion model
(`beluga/motion/omnidirectional_drive_model.hpp`), shallowly embedded over
lists and real numbers.

A particle is a pair `(state, weight)`; a particle range is a `List (S × ℝ)`.
C++ `double` arithmetic is modelled by `ℝ`; `Sophus::SO2d` by `Real.Angle`
(the circle group, whose `log` is `Real.Angle.toReal`, valued in `(-π, π]`
like `atan2`); `Sophus::SE2d` by a rotation paired with a translation vector.
-/

namespace Beluga

/-! ### Reweight action

The model overload of `reweight_base_fn::operator()` runs
`std::transform(policy, states.begin, states.end, weights.begin, weights.begin,
[](s, w) { return w * model(s); })`; sequentially this multiplies each weight
in place by the model evaluated at the co-indexed state. -/

/-- Embedding of the model (callable) overload of `reweight`: each particle
`(s, w)` becomes `(s, w * model s)`, positions preserved, in order. -/
def reweightModel {S : Type} : List (S × ℝ) → (S → ℝ) → List (S × ℝ)
  | [], _ => []
  | (s, w) :: ps, model => (s, w * model s) :: reweightModel ps model

/-- Embedding of the likelihood-range overload of `reweight`: the particle
range is zipped with the likelihood range (`ranges::views::zip` stops at the
shorter of the two) and each zipped particle's weight is multiplied in place
by its likelihood; particles beyond the zipped prefix are untouched. -/
def reweightLik {S : Type} : List (S × ℝ) → List ℝ → List (S × ℝ)
  | [], _ => []
  | p :: ps, [] => p :: ps
  | (s, w) :: ps, l :: ls => (s, w * l) :: reweightLik ps ls

/-- Specification-side contract of the precomputed form, stated from the
spec's words for comparison with `reweightLik`: it requires
`len(likelihood_source) == len(range)` and otherwise fails with a
length-mismatch precondition violation (modelled as `none`). -/
def reweightLikContract {S : Type} (ps : List (S × ℝ)) (ls : List ℝ) :
    Option (List (S × ℝ)) :=
  if ps.length = ls.length then
    some (List.zipWith (fun pt l => (pt.1, pt.2 * l)) ps ls)
  else
    none

/-! ### Execution-policy semantics

Both `reweight` overloads hand `std::transform` / `std::for_each` an execution
policy. Each per-index update writes only its own weight slot, reading only
that slot's original value (plus the co-indexed state or likelihood). We model
an execution of the batch as a list of indices in the order the policy visits
them: `std::execution::seq` is `List.range n` and a parallel policy is an
arbitrary permutation of it. -/

/-- Update of a single weight slot: slot `i` receives `f i` applied to its
current value (`f` folds in the co-indexed state or likelihood). -/
def updAt (f : ℕ → ℝ → ℝ) (w : List ℝ) (i : ℕ) : List ℝ :=
  w.set i (f i (w.getD i 0))

/-- Executing the per-slot updates in a given visit order. -/
def runOrder (f : ℕ → ℝ → ℝ) (w : List ℝ) (order : List ℕ) : List ℝ :=
  order.foldl (updAt f) w

/-! ### Omnidirectional drive motion model

`Sophus::SO2d` is the planar rotation group: modelled by `Real.Angle`, whose
group operation is angle addition and whose `log()` is `Real.Angle.toReal`,
the representative in `(-π, π]` — exactly the range of `std::atan2`.
`Sophus::SE2d` is a rotation plus a translation vector, composed by
`(R₁, t₁) · (R₂, t₂) = (R₁R₂, t₁ + R₁ t₂)`. `std::normal_distribution` draws
are modelled as `mean + stddev * z` for a standard-normal value `z` supplied
by the generator; a generator is a stream `ℕ → ℝ` of such values, consumed in
the order the draws occur. -/

/-- Two-argument arctangent, the angle of the vector `(x, y)`, in `(-π, π]`. -/
noncomputable def atan2 (y x : ℝ) : ℝ := Complex.arg ⟨x, y⟩

/-- Embedding of `Sophus::SE2d`: a rotation (`so2`) and a translation (`t`). -/
@[ext]
structure SE2 where
  so2 : Real.Angle
  t : ℝ × ℝ

/-- Group product of `Sophus::SE2d`: rotations compose, and the right factor's
translation is rotated into the left factor's frame. -/
noncomputable def SE2.mul (a b : SE2) : SE2 :=
  ⟨a.so2 + b.so2,
   (a.t.1 + a.so2.cos * b.t.1 - a.so2.sin * b.t.2,
    a.t.2 + a.so2.sin * b.t.1 + a.so2.cos * b.t.2)⟩

/-- Embedding of `std::normal_distribution<double>::param_type`. -/
structure DistributionParam where
  mean : ℝ
  stddev : ℝ

/-- Embedding of `beluga::OmnidirectionalDriveModelParam`. -/
structure OmniParams where
  rotation_noise_from_rotation : ℝ
  rotation_noise_from_translation : ℝ
  translation_noise_from_translation : ℝ
  translation_noise_from_rotation : ℝ
  strafe_noise_from_translation : ℝ
  distance_threshold : ℝ

/-- State of a `beluga::OmnidirectionalDriveModel` instance: the fixed
parameters plus the mutable fields, in declaration order. -/
structure OmniModel where
  params : OmniParams
  last_pose : Option SE2
  rotation_params : DistributionParam
  strafe_params : DistributionParam
  translation_params : DistributionParam
  first_rotation : Real.Angle

/-- Freshly constructed model: member initializers give zero-mean/zero-stddev
distribution parameters, the identity `first_rotation`, and no last pose. -/
noncomputable def mkOmniModel (p : OmniParams) : OmniModel :=
  ⟨p, none, ⟨0, 0⟩, ⟨0, 0⟩, ⟨0, 0⟩, 0⟩

/-- Drawing from `std::normal_distribution` with explicit parameters: the
standard-normal value `z` supplied by the generator, scaled and shifted. -/
def normal_draw (z : ℝ) (p : DistributionParam) : ℝ := p.mean + p.stddev * z

/-- Embedding of `OmnidirectionalDriveModel::rotation_variance`: the squared
minimum of the rotation's log-magnitude and that of the rotation flipped by a
half turn. -/
noncomputable def rotation_variance (rotation : Real.Angle) : ℝ :=
  let flipped := rotation + ((Real.pi : ℝ) : Real.Angle)
  let delta := min |rotation.toReal| |flipped.toReal|
  delta * delta

/-- Embedding of `OmnidirectionalDriveModel::update_motion`: with no stored
pose it only records the pose; otherwise it derives the noise parameters from
the pose delta and records the pose. -/
noncomputable def update_motion (m : OmniModel) (pose : SE2) : OmniModel :=
  match m.last_pose with
  | none => { m with last_pose := some pose }
  | some lp =>
      let tx := pose.t.1 - lp.t.1
      let ty := pose.t.2 - lp.t.2
      let distance := Real.sqrt (tx * tx + ty * ty)
      let distance_variance := distance * distance
      let rotation : Real.Angle := pose.so2 + (-lp.so2)
      { m with
        last_pose := some pose
        first_rotation :=
          if distance > m.params.distance_threshold
            then ((atan2 ty tx : ℝ) : Real.Angle) + (-lp.so2)
            else (0 : Real.Angle)
        rotation_params :=
          ⟨rotation.toReal,
           Real.sqrt (m.params.rotation_noise_from_rotation * rotation_variance rotation +
             m.params.rotation_noise_from_translation * distance_variance)⟩
        translation_params :=
          ⟨distance,
           Real.sqrt (m.params.translation_noise_from_translation * distance_variance +
             m.params.translation_noise_from_rotation * rotation_variance rotation)⟩
        strafe_params :=
          ⟨0,
           Real.sqrt (m.params.strafe_noise_from_translation * distance_variance +
             m.params.translation_noise_from_rotation * rotation_variance rotation)⟩ }

/-- Embedding of `OmnidirectionalDriveModel::apply_motion`. The three normal
draws happen in source order: rotation (`z 0`), forward translation (`z 1`),
strafe (`z 2`). The member function is `const` and assigns no field, so the
resulting model state is returned alongside the sampled state. -/
noncomputable def apply_motion (m : OmniModel) (state : SE2) (z : ℕ → ℝ) : SE2 × OmniModel :=
  let second_rotation : Real.Angle :=
    ((normal_draw (z 0) m.rotation_params : ℝ) : Real.Angle) + (-m.first_rotation)
  let translation : ℝ × ℝ :=
    (normal_draw (z 1) m.translation_params, -1 * normal_draw (z 2) m.strafe_params)
  (SE2.mul (SE2.mul state ⟨m.first_rotation, (0, 0)⟩) ⟨second_rotation, translation⟩, m)

/-! ### Theorems -/

theorem reweightModel_eq_map {S : Type} (p : List (S × ℝ)) (model : S → ℝ) :
    reweightModel p model = p.map fun pt => (pt.1, pt.2 * model pt.1) := by
  induction p with
  | nil => rfl
  | cons pt ps ih =>
      obtain ⟨s, w⟩ := pt
      simp [reweightModel, ih]

theorem reweightLik_eq_zip_append {S : Type} (p : List (S × ℝ)) (ls : List ℝ) :
    reweightLik p ls =
      List.zipWith (fun pt l => (pt.1, pt.2 * l)) p ls ++ p.drop ls.length := by
  induction p generalizing ls with
  | nil => simp [reweightLik]
  | cons pt ps ih =>
      obtain ⟨s, w⟩ := pt
      cases ls with
      | nil => simp [reweightLik]
      | cons l ls => simp [reweightLik, ih]

/-- C2: after `reweight(R, m)` (model form), every weight is multiplied by the
model evaluated at the co-indexed state, every state is unchanged, and the
length of the range is unchanged (the action mutates in place and returns the
same range; list-wise this is captured by the per-index equations). -/
theorem reweight_model_spec {S : Type} (p : List (S × ℝ)) (model : S → ℝ) :
    (reweightModel p model).length = p.length ∧
    (reweightModel p model).map Prod.fst = p.map Prod.fst ∧
    ∀ i : ℕ, (reweightModel p model)[i]? =
      (p[i]?).map fun pt => (pt.1, pt.2 * model pt.1) := by
  rw [reweightModel_eq_map]
  refine ⟨by simp, by simp, fun i => by simp⟩

/-- C1 counterexample: with two particles and a single likelihood, the code's
zip-based overload returns normally with the second particle untouched, while
the spec-side contract reports a length-mismatch failure (`none`). -/
theorem reweight_mismatch_no_failure_cex :
    reweightLik [(((0 : ℝ)), (2 : ℝ)), (0, 3)] [(5 : ℝ)] = [(0, 10), (0, 3)] ∧
    reweightLikContract [(((0 : ℝ)), (2 : ℝ)), (0, 3)] [(5 : ℝ)] = none := by
  constructor
  · simp [reweightLik]
    norm_num
  · simp [reweightLikContract]

/-- C1 amended: when the likelihood sequence has the same length as the
particle range, `reweight` sets `weights[i] ← weights[i] * L[i]` for every
index, leaving states unchanged — it then agrees with the spec-side contract.
On mismatched lengths it does NOT fail: it returns normally, updating only
the zipped common prefix and leaving the rest of the range untouched. -/
theorem reweight_likelihood_amended {S : Type} (p : List (S × ℝ)) (ls : List ℝ) :
    (p.length = ls.length → reweightLikContract p ls = some (reweightLik p ls)) ∧
    (∀ i : ℕ, i < ls.length →
      (reweightLik p ls)[i]? = (p[i]?).map fun pt => (pt.1, pt.2 * ls.getD i 0)) ∧
    (∀ i : ℕ, ls.length ≤ i → (reweightLik p ls)[i]? = p[i]?) ∧
    (reweightLik p ls).map Prod.fst = p.map Prod.fst := by
  refine ⟨?_, ?_, ?_, ?_⟩
  · intro h
    rw [reweightLikContract, if_pos h, reweightLik_eq_zip_append, ← h, List.drop_length,
      List.append_nil]
  · intro i hi
    induction p generalizing ls i with
    | nil => simp [reweightLik]
    | cons pt ps ih =>
        obtain ⟨s, w⟩ := pt
        cases ls with
        | nil => exact absurd hi (by simp)
        | cons l ls =>
            cases i with
            | zero => simp [reweightLik]
            | succ i => simpa [reweightLik] using ih ls i (by simpa using hi)
  · intro i hi
    induction p generalizing ls i with
    | nil => simp [reweightLik]
    | cons pt ps ih =>
        obtain ⟨s, w⟩ := pt
        cases ls with
        | nil => rfl
        | cons l ls =>
            cases i with
            | zero => exact absurd hi (by simp)
            | succ i => simpa [reweightLik] using ih ls i (by simpa using hi)
  · induction p generalizing ls with
    | nil => simp [reweightLik]
    | cons pt ps ih =>
        obtain ⟨s, w⟩ := pt
        cases ls with
        | nil => simp [reweightLik]
        | cons l ls => simp [reweightLik, ih]

theorem reweight_likelihood_amended_witness :
    reweightLikContract [(((7 : ℝ)), (2 : ℝ))] [(3 : ℝ)] =
      some (reweightLik [(((7 : ℝ)), (2 : ℝ))] [(3 : ℝ)]) ∧
    (reweightLik [(((7 : ℝ)), (2 : ℝ))] [(3 : ℝ)])[0]? = some ((7 : ℝ), (2 : ℝ) * 3) ∧
    (reweightLik [(((7 : ℝ)), (2 : ℝ))] [(3 : ℝ)])[1]? = none := by
  refine ⟨(reweight_likelihood_amended _ _).1 rfl, ?_, ?_⟩
  · have h := (reweight_likelihood_amended [(((7 : ℝ)), (2 : ℝ))] [(3 : ℝ)]).2.1 0
      (by norm_num)
    simpa using h
  · have h := (reweight_likelihood_amended [(((7 : ℝ)), (2 : ℝ))] [(3 : ℝ)]).2.2.1 1
      (by norm_num)
    simpa using h

/-- C10: when the likelihood sequence is strictly shorter than the particle
range, the zip-based overload returns normally, multiplies exactly the first
`len(L)` weights by their likelihoods, and leaves every remaining particle
and every state unchanged. -/
theorem reweight_truncates {S : Type} (p : List (S × ℝ)) (ls : List ℝ)
    (h : ls.length < p.length) :
    (reweightLik p ls).length = p.length ∧
    (reweightLik p ls).take ls.length =
      List.zipWith (fun pt l => (pt.1, pt.2 * l)) p ls ∧
    (reweightLik p ls).drop ls.length = p.drop ls.length ∧
    (reweightLik p ls).map Prod.fst = p.map Prod.fst := by
  have hz : (List.zipWith (fun (pt : S × ℝ) l => (pt.1, pt.2 * l)) p ls).length
      = ls.length := by
    simp [List.length_zipWith]
    omega
  refine ⟨?_, ?_, ?_, (reweight_likelihood_amended p ls).2.2.2⟩
  · rw [reweightLik_eq_zip_append]
    simp [hz]
    omega
  · rw [reweightLik_eq_zip_append, ← hz, List.take_left]
  · rw [reweightLik_eq_zip_append, ← hz, List.drop_left]

theorem reweight_truncates_witness :
    (1 : ℕ) < 2 ∧
    (reweightLik [(((4 : ℝ)), (2 : ℝ)), (5, 6)] [(3 : ℝ)]).drop 1 =
      [(((5 : ℝ)), (6 : ℝ))] := by
  refine ⟨by norm_num, ?_⟩
  have h := (reweight_truncates [(((4 : ℝ)), (2 : ℝ)), (5, 6)] [(3 : ℝ)]
    (by norm_num)).2.2.1
  simpa using h

/-- C9: reweight preserves non-negative weights when the supplied likelihoods
are non-negative (for both the model form and the precomputed form), and it
performs no normalization for either likelihood source: each output weight is
exactly its particle's own product — for the model form `w * model(s)` at
every position, for the sequence form `w * L[i]` on the zipped prefix with
the remaining weights untouched — with no global rescaling of the range. -/
theorem reweight_preserves_nonneg {S : Type} (p : List (S × ℝ)) (model : S → ℝ)
    (ls : List ℝ) :
    ((∀ pt ∈ p, 0 ≤ pt.2) → (∀ s : S, 0 ≤ model s) →
      ∀ pt ∈ reweightModel p model, 0 ≤ pt.2) ∧
    ((∀ pt ∈ p, 0 ≤ pt.2) → (∀ l ∈ ls, 0 ≤ l) →
      ∀ pt ∈ reweightLik p ls, 0 ≤ pt.2) ∧
    (reweightModel p model).map Prod.snd = p.map (fun pt => pt.2 * model pt.1) ∧
    (reweightLik p ls).map Prod.snd =
      List.zipWith (fun pt l => pt.2 * l) p ls ++ (p.drop ls.length).map Prod.snd := by
  refine ⟨?_, ?_, ?_, ?_⟩
  · intro hp hm pt hpt
    rw [reweightModel_eq_map] at hpt
    obtain ⟨⟨s, w⟩, hmem, rfl⟩ := List.mem_map.mp hpt
    exact mul_nonneg (hp _ hmem) (hm s)
  · intro hp hl pt hpt
    induction p generalizing ls with
    | nil => simp [reweightLik] at hpt
    | cons q ps ih =>
        obtain ⟨s, w⟩ := q
        cases ls with
        | nil =>
            simp only [reweightLik] at hpt
            exact hp pt hpt
        | cons l ls =>
            simp only [reweightLik, List.mem_cons] at hpt
            rcases hpt with rfl | hpt
            · exact mul_nonneg (hp (s, w) (by simp)) (hl l (by simp))
            · exact ih ls (fun q hq => hp q (List.mem_cons_of_mem _ hq))
                (fun x hx => hl x (List.mem_cons_of_mem _ hx)) hpt
  · rw [reweightModel_eq_map]
    simp
  · rw [reweightLik_eq_zip_append]
    simp [List.map_zipWith]

theorem runOrder_length (f : ℕ → ℝ → ℝ) :
    ∀ (order : List ℕ) (w : List ℝ), (runOrder f w order).length = w.length := by
  intro order
  induction order with
  | nil => intro w; rfl
  | cons j t ih =>
      intro w
      have : runOrder f w (j :: t) = runOrder f (updAt f w j) t := rfl
      rw [this, ih]
      simp [updAt]

theorem runOrder_getD (f : ℕ → ℝ → ℝ) :
    ∀ (order : List ℕ) (w : List ℝ), order.Nodup → (∀ j ∈ order, j < w.length) →
      ∀ i : ℕ, (runOrder f w order).getD i 0 =
        if i ∈ order then f i (w.getD i 0) else w.getD i 0 := by
  intro order
  induction order with
  | nil => intro w _ _ i; simp [runOrder]
  | cons j t ih =>
      intro w hnd hb i
      have hj : j < w.length := hb j (by simp)
      have hrun : runOrder f w (j :: t) = runOrder f (updAt f w j) t := rfl
      have hndt : t.Nodup := (List.nodup_cons.mp hnd).2
      have hjt : j ∉ t := (List.nodup_cons.mp hnd).1
      have hbt : ∀ k ∈ t, k < (updAt f w j).length := by
        intro k hk
        simpa [updAt] using hb k (by simp [hk])
      rw [hrun, ih (updAt f w j) hndt hbt i]
      by_cases hij : i = j
      · subst hij
        rw [if_neg hjt, if_pos (by simp)]
        rw [updAt, List.getD_eq_getElem _ _ (by simpa using hj)]
        simp [List.getElem_set_self]
      · have hset : (updAt f w j).getD i 0 = w.getD i 0 := by
          simp [updAt, List.getD, List.getElem?_set_ne (fun h => hij h.symm)]
        rw [hset]
        by_cases hit : i ∈ t
        · rw [if_pos hit, if_pos (by simp [hit])]
        · rw [if_neg hit, if_neg (by simp [hij, hit])]

theorem runOrder_perm_eq (f : ℕ → ℝ → ℝ) (w : List ℝ) (order : List ℕ)
    (h : order.Perm (List.range w.length)) :
    runOrder f w order = (List.range w.length).map fun i => f i (w.getD i 0) := by
  have hnd : order.Nodup := h.nodup_iff.mpr (List.nodup_range _)
  have hb : ∀ j ∈ order, j < w.length := fun j hj => List.mem_range.mp (h.mem_iff.mp hj)
  apply List.ext_getElem (by simp [runOrder_length])
  intro i h1 h2
  have hi : i < w.length := by simpa [runOrder_length] using h1
  have hval := runOrder_getD f order w hnd hb i
  rw [if_pos (h.mem_iff.mpr (List.mem_range.mpr hi))] at hval
  calc (runOrder f w order)[i]
      = (runOrder f w order).getD i 0 := (List.getD_eq_getElem _ _ h1).symm
    _ = f i (w.getD i 0) := hval
    _ = ((List.range w.length).map fun i => f i (w.getD i 0))[i] := by
        simp

/-- C8: any execution order that is a permutation of the index range — a
parallel policy's interleaving, or `std::execution::seq` itself (the identity
permutation) — produces exactly the weights of the denotational reweight, for
both the model form and the (length-matched) precomputed form; hence parallel
and sequential execution are numerically identical. -/
theorem reweight_par_eq_seq {S : Type} (p : List (S × ℝ)) (model : S → ℝ)
    (ds : S) (ls : List ℝ) (order : List ℕ) :
    (order.Perm (List.range p.length) →
      runOrder (fun i w => w * model ((p.map Prod.fst).getD i ds))
          (p.map Prod.snd) order
        = (reweightModel p model).map Prod.snd) ∧
    (order.Perm (List.range p.length) → p.length = ls.length →
      runOrder (fun i w => w * ls.getD i 0) (p.map Prod.snd) order
        = (reweightLik p ls).map Prod.snd) := by
  have hwlen : (p.map Prod.snd).length = p.length := by simp
  constructor
  · intro hperm
    rw [runOrder_perm_eq _ _ _ (by rwa [hwlen])]
    rw [reweightModel_eq_map]
    apply List.ext_getElem (by simp [hwlen])
    intro i h1 h2
    have hi : i < p.length := by simpa [hwlen] using h1
    simp [List.getD_eq_getElem _ _ (by simpa using hi), hi]
  · intro hperm hlen
    rw [runOrder_perm_eq _ _ _ (by rwa [hwlen])]
    rw [reweightLik_eq_zip_append, ← hlen, List.drop_length, List.append_nil]
    apply List.ext_getElem (by simp [hwlen, ← hlen])
    intro i h1 h2
    have hi : i < p.length := by simpa [hwlen] using h1
    have hil : i < ls.length := hlen ▸ hi
    simp [List.getD_eq_getElem _ _ (by simpa using hi),
      List.getD_eq_getElem _ _ (by simpa using hil), hi, hil]

theorem reweight_par_eq_seq_witness :
    ([1, 0] : List ℕ).Perm (List.range 2) ∧
    runOrder (fun i w => w * ([(5 : ℝ), 7].getD i 0))
        ([(((4 : ℝ)), (2 : ℝ)), (9, 3)].map Prod.snd) [1, 0]
      = (reweightLik [(((4 : ℝ)), (2 : ℝ)), (9, 3)] [(5 : ℝ), 7]).map Prod.snd := by
  refine ⟨by decide, ?_⟩
  exact (reweight_par_eq_seq [(((4 : ℝ)), (2 : ℝ)), (9, 3)] (fun _ => 1) (0 : ℝ)
    [(5 : ℝ), 7] [1, 0]).2 (by decide) (by norm_num)

theorem reweight_preserves_nonneg_witness :
    (0 : ℝ) ≤ (((7 : ℝ)), (2 : ℝ) * 3).2 := by
  have h := (reweight_preserves_nonneg [(((7 : ℝ)), (2 : ℝ))] (fun _ => (1 : ℝ))
    [(3 : ℝ)]).2.1 (by norm_num) (by norm_num)
  exact h ((7 : ℝ), (2 : ℝ) * 3) (by simp [reweightLik])

theorem SE2.mul_id_right (s : SE2) : SE2.mul s ⟨0, (0, 0)⟩ = s := by
  unfold SE2.mul
  ext <;> simp

/-- C5: the rotation-variance helper is invariant under adding a half turn to
its argument (so in particular at 0, π/2, π and −π/2). -/
theorem rotation_variance_half_turn (θ : Real.Angle) :
    rotation_variance θ = rotation_variance (θ + ((Real.pi : ℝ) : Real.Angle)) := by
  have h2 : θ + ((Real.pi : ℝ) : Real.Angle) + ((Real.pi : ℝ) : Real.Angle) = θ := by
    rw [add_assoc, Real.Angle.coe_pi_add_coe_pi, add_zero]
  simp only [rotation_variance]
  rw [h2, min_comm]

theorem update_motion_none (m : OmniModel) (pose : SE2)
    (h : m.last_pose = none) :
    update_motion m pose = { m with last_pose := some pose } := by
  simp only [update_motion, h]

theorem update_motion_some (m : OmniModel) (lp pose : SE2)
    (hlp : m.last_pose = some lp) :
    update_motion m pose =
      (let tx := pose.t.1 - lp.t.1
       let ty := pose.t.2 - lp.t.2
       let distance := Real.sqrt (tx * tx + ty * ty)
       let distance_variance := distance * distance
       let rotation : Real.Angle := pose.so2 + (-lp.so2)
       { m with
         last_pose := some pose
         first_rotation :=
           if distance > m.params.distance_threshold
             then ((atan2 ty tx : ℝ) : Real.Angle) + (-lp.so2)
             else (0 : Real.Angle)
         rotation_params :=
           ⟨rotation.toReal,
            Real.sqrt (m.params.rotation_noise_from_rotation * rotation_variance rotation +
              m.params.rotation_noise_from_translation * distance_variance)⟩
         translation_params :=
           ⟨distance,
            Real.sqrt (m.params.translation_noise_from_translation * distance_variance +
              m.params.translation_noise_from_rotation * rotation_variance rotation)⟩
         strafe_params :=
           ⟨0,
            Real.sqrt (m.params.strafe_noise_from_translation * distance_variance +
              m.params.translation_noise_from_rotation * rotation_variance rotation)⟩ }) := by
  simp only [update_motion, hlp]

theorem rotation_variance_zero : rotation_variance 0 = 0 := by
  simp only [rotation_variance]
  rw [zero_add, Real.Angle.toReal_zero, Real.Angle.toReal_pi, abs_zero,
    min_eq_left (abs_nonneg _), mul_zero]

theorem atan2_zero_one : atan2 0 1 = 0 := by
  have h : (⟨1, 0⟩ : ℂ) = 1 := by
    apply Complex.ext <;> simp
  rw [atan2, h, Complex.arg_one]

/-- C4 amended: with a stored prior pose, `update_motion` sets
`first_rotation` to the bearing of the translation relative to the previous
heading when the translation's norm strictly exceeds `distance_threshold`,
and to the identity rotation when the norm is less than or equal to the
threshold (the source tests `distance > threshold`, so the at-threshold case
falls in the zero branch). -/
theorem first_rotation_amended (m : OmniModel) (lp pose : SE2)
    (hlp : m.last_pose = some lp) :
    (Real.sqrt ((pose.t.1 - lp.t.1) * (pose.t.1 - lp.t.1) +
        (pose.t.2 - lp.t.2) * (pose.t.2 - lp.t.2)) > m.params.distance_threshold →
      (update_motion m pose).first_rotation =
        ((atan2 (pose.t.2 - lp.t.2) (pose.t.1 - lp.t.1) : ℝ) : Real.Angle) +
          (-lp.so2)) ∧
    (Real.sqrt ((pose.t.1 - lp.t.1) * (pose.t.1 - lp.t.1) +
        (pose.t.2 - lp.t.2) * (pose.t.2 - lp.t.2)) ≤ m.params.distance_threshold →
      (update_motion m pose).first_rotation = 0) := by
  rw [update_motion_some m lp pose hlp]
  constructor
  · intro h
    simp only
    rw [if_pos h]
  · intro h
    simp only
    rw [if_neg (not_lt.mpr h)]

theorem first_rotation_amended_witness :
    Real.sqrt ((((1 : ℝ)) - 0) * (((1 : ℝ)) - 0) + (((0 : ℝ)) - 0) * (((0 : ℝ)) - 0)) >
      (0.01 : ℝ) ∧
    (update_motion
        (update_motion (mkOmniModel ⟨1, 1, 1, 1, 1, 0.01⟩) ⟨0, (0, 0)⟩)
        ⟨0, (1, 0)⟩).first_rotation =
      ((atan2 (((0 : ℝ)) - 0) (((1 : ℝ)) - 0) : ℝ) : Real.Angle) +
        (-((⟨0, (0, 0)⟩ : SE2).so2)) := by
  have hgt : Real.sqrt ((((1 : ℝ)) - 0) * (((1 : ℝ)) - 0) +
      (((0 : ℝ)) - 0) * (((0 : ℝ)) - 0)) > (0.01 : ℝ) := by
    norm_num [Real.sqrt_one]
  refine ⟨hgt, ?_⟩
  have h := (first_rotation_amended
    (update_motion (mkOmniModel ⟨1, 1, 1, 1, 1, 0.01⟩) ⟨0, (0, 0)⟩)
    ⟨0, (0, 0)⟩ ⟨0, (1, 0)⟩ rfl).1
  exact h (by simpa using hgt)

/-- C4 counterexample: with threshold 1 and a unit translation, the distance
equals the threshold, so the claim's `distance ≥ threshold` case demands the
bearing relative to the previous heading π/2 — the non-zero angle −π/2 — yet
the code stores the identity rotation, because it tests `distance > threshold`
strictly. -/
theorem first_rotation_threshold_cex :
    Real.sqrt ((((1 : ℝ)) - 0) * (((1 : ℝ)) - 0) + (((0 : ℝ)) - 0) * (((0 : ℝ)) - 0)) ≥
      (1 : ℝ) ∧
    (update_motion
        (update_motion (mkOmniModel ⟨0, 0, 0, 0, 0, 1⟩)
          ⟨((Real.pi / 2 : ℝ) : Real.Angle), (0, 0)⟩)
        ⟨0, (1, 0)⟩).first_rotation = 0 ∧
    ((atan2 (((0 : ℝ)) - 0) (((1 : ℝ)) - 0) : ℝ) : Real.Angle) +
        (-((Real.pi / 2 : ℝ) : Real.Angle)) ≠ 0 := by
  refine ⟨by norm_num [Real.sqrt_one], ?_, ?_⟩
  · rw [update_motion_none (mkOmniModel ⟨0, 0, 0, 0, 0, 1⟩)
        ⟨((Real.pi / 2 : ℝ) : Real.Angle), (0, 0)⟩ rfl]
    rw [update_motion_some _ ⟨((Real.pi / 2 : ℝ) : Real.Angle), (0, 0)⟩ _ rfl]
    simp only [mkOmniModel]
    rw [if_neg (by norm_num [Real.sqrt_one])]
  · intro hzero
    have h1 : ((atan2 (((0 : ℝ)) - 0) (((1 : ℝ)) - 0) : ℝ) : Real.Angle) +
        (-((Real.pi / 2 : ℝ) : Real.Angle)) = ((-(Real.pi / 2) : ℝ) : Real.Angle) := by
      have ha : atan2 (((0 : ℝ)) - 0) (((1 : ℝ)) - 0) = 0 := by
        norm_num [atan2_zero_one]
      rw [ha, Real.Angle.coe_zero, zero_add, ← Real.Angle.coe_neg]
    rw [h1] at hzero
    have h2 : ((-(Real.pi / 2) : ℝ) : Real.Angle).toReal = -(Real.pi / 2) := by
      rw [Real.Angle.toReal_coe_eq_self_iff]
      constructor <;> linarith [Real.pi_pos]
    rw [hzero, Real.Angle.toReal_zero] at h2
    linarith [Real.pi_pos, h2]

/-- C6: after constructing a motion model and calling `update_motion` exactly
once, the noise parameters still hold their zero defaults and the identity
`first_rotation`, and `apply_motion` returns any state unchanged for any
generator draws (the zero-stddev distributions always produce their zero
means). -/
theorem single_update_identity (prm : OmniParams) (pose s : SE2) (z : ℕ → ℝ) :
    (update_motion (mkOmniModel prm) pose).rotation_params = ⟨0, 0⟩ ∧
    (update_motion (mkOmniModel prm) pose).translation_params = ⟨0, 0⟩ ∧
    (update_motion (mkOmniModel prm) pose).strafe_params = ⟨0, 0⟩ ∧
    (update_motion (mkOmniModel prm) pose).first_rotation = 0 ∧
    (apply_motion (update_motion (mkOmniModel prm) pose) s z).1 = s := by
  refine ⟨rfl, rfl, rfl, rfl, ?_⟩
  have hm : update_motion (mkOmniModel prm) pose =
      { mkOmniModel prm with last_pose := some pose } := rfl
  rw [hm]
  simp only [apply_motion, normal_draw, mkOmniModel]
  simp only [zero_mul, add_zero, mul_zero, neg_zero, Real.Angle.coe_zero, zero_add]
  rw [SE2.mul_id_right, SE2.mul_id_right]

/-- C7: `apply_motion` never mutates the model (the returned model state is
the input model, every field included), and its sampled state is fully
determined by the input state, the generator draws, and the stored noise
snapshot (`first_rotation` plus the three distribution parameter pairs) —
models agreeing on that snapshot sample identically. -/
theorem apply_motion_pure (m m2 : OmniModel) (s : SE2) (z : ℕ → ℝ) :
    (apply_motion m s z).2 = m ∧
    (m.first_rotation = m2.first_rotation →
      m.rotation_params = m2.rotation_params →
      m.translation_params = m2.translation_params →
      m.strafe_params = m2.strafe_params →
      (apply_motion m s z).1 = (apply_motion m2 s z).1) := by
  refine ⟨rfl, fun h1 h2 h3 h4 => ?_⟩
  simp only [apply_motion, h1, h2, h3, h4]

theorem apply_motion_pure_witness :
    (apply_motion (mkOmniModel ⟨1, 2, 3, 4, 5, 6⟩) ⟨0, (0, 0)⟩ (fun _ => 0)).2 =
      mkOmniModel ⟨1, 2, 3, 4, 5, 6⟩ ∧
    (apply_motion (mkOmniModel ⟨1, 2, 3, 4, 5, 6⟩) ⟨0, (0, 0)⟩ (fun _ => 0)).1 =
      (apply_motion (mkOmniModel ⟨1, 2, 3, 4, 5, 6⟩) ⟨0, (0, 0)⟩ (fun _ => 0)).1 :=
  ⟨(apply_motion_pure (mkOmniModel ⟨1, 2, 3, 4, 5, 6⟩) (mkOmniModel ⟨1, 2, 3, 4, 5, 6⟩)
      ⟨0, (0, 0)⟩ (fun _ => 0)).1,
   (apply_motion_pure (mkOmniModel ⟨1, 2, 3, 4, 5, 6⟩) (mkOmniModel ⟨1, 2, 3, 4, 5, 6⟩)
      ⟨0, (0, 0)⟩ (fun _ => 0)).2 rfl rfl rfl rfl⟩

/-- C3: after updates with poses `(0,0,heading 0)` and `(1,0,heading 0)` the
stored parameters are rotation `(mean 0, std √α2)`, forward translation
`(mean 1, std √α3)`, strafe `(mean 0, std √α5)` and identity `first_rotation`;
sampling with a zero-noise generator (every draw is the distribution's mean)
moves any state by exactly `(1, 0)` in its own frame — the group composition
with the pure translation `(1, 0)` — leaving the heading unchanged. -/
theorem two_update_example (a1 a2 a3 a4 a5 : ℝ) (s : SE2) :
    let m := update_motion
      (update_motion (mkOmniModel ⟨a1, a2, a3, a4, a5, 0.01⟩) ⟨0, (0, 0)⟩)
      ⟨0, (1, 0)⟩
    m.rotation_params = ⟨0, Real.sqrt a2⟩ ∧
    m.translation_params = ⟨1, Real.sqrt a3⟩ ∧
    m.strafe_params = ⟨0, Real.sqrt a5⟩ ∧
    m.first_rotation = 0 ∧
    (apply_motion m s (fun _ => 0)).1 = SE2.mul s ⟨0, (1, 0)⟩ ∧
    (apply_motion m s (fun _ => 0)).1.so2 = s.so2 := by
  intro m
  have hdist : Real.sqrt ((((1 : ℝ)) - 0) * (((1 : ℝ)) - 0) +
      (((0 : ℝ)) - 0) * (((0 : ℝ)) - 0)) = 1 := by
    norm_num [Real.sqrt_one]
  have hm : m = ⟨⟨a1, a2, a3, a4, a5, 0.01⟩, some ⟨0, (1, 0)⟩,
      ⟨0, Real.sqrt a2⟩, ⟨0, Real.sqrt a5⟩, ⟨1, Real.sqrt a3⟩, 0⟩ := by
    show update_motion
      (update_motion (mkOmniModel ⟨a1, a2, a3, a4, a5, 0.01⟩) ⟨0, (0, 0)⟩)
      ⟨0, (1, 0)⟩ = _
    rw [update_motion_none (mkOmniModel ⟨a1, a2, a3, a4, a5, 0.01⟩) ⟨0, (0, 0)⟩ rfl]
    rw [update_motion_some _ ⟨0, (0, 0)⟩ _ rfl]
    simp only [mkOmniModel, hdist]
    rw [if_pos (by norm_num [hdist])]
    simp only [neg_zero, add_zero, Real.Angle.toReal_zero, rotation_variance_zero]
    norm_num [atan2_zero_one, Real.Angle.coe_zero, hdist]
  have h5 : (apply_motion m s (fun _ => 0)).1 = SE2.mul s ⟨0, (1, 0)⟩ := by
    rw [hm]
    simp only [apply_motion, normal_draw]
    simp only [mul_zero, add_zero, neg_zero, Real.Angle.coe_zero, zero_add,
      neg_mul, one_mul, neg_zero]
    rw [SE2.mul_id_right]
  refine ⟨by rw [hm], by rw [hm], by rw [hm], by rw [hm], h5, ?_⟩
  rw [h5]
  simp [SE2.mul]

end Beluga
